import Mathlib

/-!
# Active Inference core: shallow embedding and verification

The repository consists of two usage scripts (`Simulation.txt` and
`inductive_inference_gridworld.ipynb`) driving the discrete active-inference
agent core described in the specification: generative-model validation,
policy enumeration, mean-field state estimation, expected-free-energy (EFE)
policy evaluation, action sampling and empirical-prior propagation.  The
core itself (the `Agent` class and the `control` module) is not part of the
source tree, so every component below is modelled from the specification's
description of it.

Real-valued probability arithmetic is embedded over `ℚ`.  The transcendental
maps `exp` and `log` used by the softmax / log-likelihood steps are abstracted
as explicit function parameters (`expQ`, `logQ`); the theorems assume nothing
about them beyond pointwise positivity of `expQ` where normalization is at
stake, so they hold in particular for the real exponential.

The batch axis of the spec is an outer list: a batched operation maps the
per-row operation over the rows (spec §5: rows are processed independently).
-/

namespace ActiveInference

/-- Epsilon floor applied before every logarithm, per the spec (`1e-16`). -/
def epsFloor : ℚ := 1 / 10 ^ 16

/-- Construction-time normalization tolerance, per the spec (`1e-4`). -/
def normTol : ℚ := 1 / 10 ^ 4

/-- Belief-normalization tolerance used by the testable properties (`1e-6`). -/
def beliefTol : ℚ := 1 / 10 ^ 6

/-- Divide every entry of a vector by the vector's total mass. -/
def normalizeVec (v : List ℚ) : List ℚ :=
  v.map (fun x => x / v.sum)

/-- Softmax with the exponential abstracted: exponentiate every score with
`expQ`, then renormalize. -/
def softmaxScores (expQ : ℚ → ℚ) (v : List ℚ) : List ℚ :=
  normalizeVec (v.map expQ)

/-- All tuples whose `i`-th coordinate is drawn from the `i`-th input list,
enumerated with the first coordinate varying slowest (lexicographic order). -/
def prodLists {α : Type} : List (List α) → List (List α)
  | [] => [[]]
  | l :: ls => l.flatMap (fun x => (prodLists ls).map (fun t => x :: t))

/-! ## PolicyEnumerator -/

/-- Modelled from the spec (§4.2 `PolicyEnumerator.construct_policies`, absent
from `src/` — only its call sites appear there): enumerate the cartesian
product of per-factor action indices (range `num_controls[f]`, which for
`num_controls[f] = 1` is the single null action `0`) repeated for
`policy_len` timesteps, in deterministic lexicographic order.  A policy is a
`policy_len`-long list of per-factor action-index lists. -/
def construct_policies (num_controls : List ℕ) (policy_len : ℕ) :
    List (List (List ℕ)) :=
  prodLists (List.replicate policy_len (prodLists (num_controls.map List.range)))

/-! ## Generative model (single batch row) -/

/-- One batch row of the generative model.  `A` holds, per modality, one
observation distribution per joint hidden state (joint states enumerated by
`combos num_states`); `B` holds, per factor, per action, per current state,
the distribution over next states; `C`, `D`, `E`, `H` are the preference,
prior, policy-prior and inductive-goal vectors of the spec's data model. -/
structure GenModel where
  num_obs : List ℕ
  num_states : List ℕ
  num_controls : List ℕ
  A : List (List (List ℚ))
  B : List (List (List (List ℚ)))
  C : List (List ℚ)
  D : List (List ℚ)
  E : Option (List ℚ)
  H : Option (List (List ℚ))
deriving Inhabited

/-- Enumeration of joint hidden states, in the fixed lexicographic order
shared with the `A` tensor's joint-state axis. -/
def combos (dims : List ℕ) : List (List ℕ) :=
  prodLists (dims.map List.range)

/-- Probability of joint state `s` under the factorized belief `qs`. -/
def jointProb (qs : List (List ℚ)) (s : List ℕ) : ℚ :=
  ((s.zip qs).map (fun p => p.2.getD p.1 0)).prod

/-- `(matVec n w vs)[j] = ∑ i, w[i] * vs[i][j]`: contract a weight vector
against a list of row vectors, producing a length-`n` vector. -/
def matVec (n : ℕ) (w : List ℚ) (vs : List (List ℚ)) : List ℚ :=
  (List.range n).map (fun j => ((w.zip vs).map (fun p => p.1 * p.2.getD j 0)).sum)

/-- Dot product of two vectors (truncating to the shorter length). -/
def dot (v w : List ℚ) : ℚ :=
  ((v.zip w).map (fun p => p.1 * p.2)).sum

/-- Predicted observation distribution of modality tensor `Am` under the
factorized belief `qs`: `qo[o] = ∑ s, (∏ f, qs[f][s_f]) * Am[s][o]`. -/
def predictObs (dims : List ℕ) (Am : List (List ℚ)) (numObsM : ℕ)
    (qs : List (List ℚ)) : List ℚ :=
  matVec numObsM ((combos dims).map (jointProb qs)) Am

/-! ## StateEstimator -/

/-- Product of the beliefs of every factor except `f` at joint state `s`. -/
def prodExcept (qs : List (List ℚ)) (s : List ℕ) (f : ℕ) : ℚ :=
  ((List.range s.length).map (fun g =>
    if g = f then 1 else (qs.getD g []).getD (s.getD g 0) 0)).prod

/-- Likelihood contribution of modality tensor `Am` for factor `f` at state
`x`: contract `Am` against the observed index `o` and the other factors'
beliefs. -/
def likFactor (dims : List ℕ) (Am : List (List ℚ)) (o : ℕ)
    (qs : List (List ℚ)) (f : ℕ) (x : ℕ) : ℚ :=
  (((combos dims).zip Am).map (fun sa =>
    if sa.1.getD f 0 = x then prodExcept qs sa.1 f * sa.2.getD o 0 else 0)).sum

/-- One coordinate-ascent update of factor `f` (spec §4.3): log-likelihood
contributions of every modality plus the log empirical prior, epsilon-floored,
then softmax. -/
def updateFactor (expQ logQ : ℚ → ℚ) (g : GenModel) (obs : List ℕ)
    (prior : List (List ℚ)) (qs : List (List ℚ)) (f : ℕ) : List ℚ :=
  softmaxScores expQ
    ((List.range (g.num_states.getD f 0)).map (fun x =>
      ((List.range g.A.length).map (fun m =>
        logQ (likFactor g.num_states (g.A.getD m []) (obs.getD m 0) qs f x
          + epsFloor))).sum
      + logQ ((prior.getD f []).getD x 0 + epsFloor)))

/-- Sequentially update the factors listed in `fs`, each update seeing the
factors already updated in this sweep (coordinate ascent). -/
def sweepAux (expQ logQ : ℚ → ℚ) (g : GenModel) (obs : List ℕ)
    (prior : List (List ℚ)) : List ℕ → List (List ℚ) → List (List ℚ)
  | [], qs => qs
  | f :: fs, qs =>
      sweepAux expQ logQ g obs prior fs
        (qs.set f (updateFactor expQ logQ g obs prior qs f))

/-- One full fixed-point sweep across all hidden-state factors. -/
def sweep (expQ logQ : ℚ → ℚ) (g : GenModel) (obs : List ℕ)
    (prior : List (List ℚ)) (qs : List (List ℚ)) : List (List ℚ) :=
  sweepAux expQ logQ g obs prior (List.range g.num_states.length) qs

/-- Maximum absolute per-entry belief change between two belief states. -/
def maxDiff (q q' : List (List ℚ)) : ℚ :=
  ((q.zip q').map (fun p =>
    ((p.1.zip p.2).map (fun xy => |xy.1 - xy.2|)).foldr max 0)).foldr max 0

/-- Bounded fixed-point iteration: run `step` for at most `n` sweeps, stopping
early as soon as the maximum belief change falls below `tol`.  Returns the
final iterate, the number of sweeps performed, and whether it converged. -/
def fpiAux (step : List (List ℚ) → List (List ℚ)) (tol : ℚ) :
    ℕ → List (List ℚ) → List (List ℚ) × ℕ × Bool
  | 0, qs => (qs, 0, false)
  | n + 1, qs =>
    if maxDiff qs (step qs) < tol then (step qs, 1, true)
    else
      ((fpiAux step tol n (step qs)).1,
       (fpiAux step tol n (step qs)).2.1 + 1,
       (fpiAux step tol n (step qs)).2.2)

/-- Result of state estimation: the posterior belief, the number of sweeps
used, and the non-fatal `ConvergenceWarning` flag. -/
structure InferResult where
  qs : List (List ℚ)
  sweeps : ℕ
  warning : Bool
deriving Inhabited

/-- Uniform initialization of the coordinate-ascent iteration. -/
def uniformInit (dims : List ℕ) : List (List ℚ) :=
  dims.map (fun n => List.replicate n ((n : ℚ))⁻¹)

/-- Default hard cap on fixed-point sweeps (spec §4.3: "e.g. 16"). -/
def maxSweeps : ℕ := 16

/-- Default convergence tolerance of the fixed-point loop (spec: `1e-4`). -/
def convergenceTol : ℚ := 1 / 10 ^ 4

/-- Modelled from the spec (§4.3 `StateEstimator.infer_states`, absent from
`src/`): coordinate-ascent mean-field fixed-point iteration with a hard sweep
cap and an early convergence exit; when the cap is reached without
convergence the non-fatal `ConvergenceWarning` flag is set and the last
iterate is still returned. -/
def infer_states (expQ logQ : ℚ → ℚ) (g : GenModel) (obs : List ℕ)
    (empirical_prior : List (List ℚ)) (numIter : ℕ) (tol : ℚ) : InferResult :=
  let r := fpiAux (sweep expQ logQ g obs empirical_prior) tol numIter
    (uniformInit g.num_states)
  ⟨r.1, r.2.1, !r.2.2⟩

/-- Batched state estimation: one independent row per (model, observation,
prior) triple. -/
def infer_statesBatch (expQ logQ : ℚ → ℚ)
    (rows : List (GenModel × List ℕ × List (List ℚ)))
    (numIter : ℕ) (tol : ℚ) : List InferResult :=
  rows.map (fun row => infer_states expQ logQ row.1 row.2.1 row.2.2 numIter tol)

/-! ## EmpiricalPriorUpdater and forward rollout -/

/-- Propagate factor `f`'s belief through the transition slice selected by
action `a`: `(B[f][:, :, a]) ⬝ q`. -/
def propagateFactor (g : GenModel) (f : ℕ) (a : ℕ) (q : List ℚ) : List ℚ :=
  matVec (g.num_states.getD f 0) q ((g.B.getD f []).getD a [])

/-- One forward prediction step: every factor's belief pushed through the
transition slice of that factor's action. -/
def rolloutStep (g : GenModel) (acts : List ℕ) (qs : List (List ℚ)) :
    List (List ℚ) :=
  (List.range g.num_states.length).map (fun f =>
    propagateFactor g f (acts.getD f 0) (qs.getD f []))

/-- Predicted belief trajectory of a policy: one belief state per policy
step, obtained by repeatedly pushing the belief through `B`. -/
def rollout (g : GenModel) : List (List ℕ) → List (List ℚ) →
    List (List (List ℚ))
  | [], _ => []
  | acts :: rest, qs =>
    rolloutStep g acts qs :: rollout g rest (rolloutStep g acts qs)

/-- Modelled from the spec (§4.7 `EmpiricalPriorUpdater.update_empirical_prior`,
absent from `src/`): for each factor `f` the next prior is
`B[f][:, :, actions[f]] ⬝ belief[f]`, and `(belief, actions)` is appended to
the history without touching earlier entries. -/
def update_empirical_prior (g : GenModel) (actions : List ℕ)
    (belief : List (List ℚ)) (hist : List (List (List ℚ) × List ℕ)) :
    List (List ℚ) × List (List (List ℚ) × List ℕ) :=
  ((List.range g.num_states.length).map (fun f =>
      propagateFactor g f (actions.getD f 0) (belief.getD f [])),
   hist ++ [(belief, actions)])

/-! ## ExpectedFreeEnergyEvaluator -/

/-- Expected log-preference (risk/utility term): for each rollout step and
modality, the predicted observation distribution dotted with the
epsilon-floored log preferences. -/
def utilityTerm (logQ : ℚ → ℚ) (g : GenModel)
    (qspred : List (List (List ℚ))) : ℚ :=
  (qspred.map (fun qs =>
    ((List.range g.num_obs.length).map (fun m =>
      dot (predictObs g.num_states (g.A.getD m []) (g.num_obs.getD m 0) qs)
        ((g.C.getD m []).map (fun c => logQ (c + epsFloor))))).sum)).sum

/-- Negative entropy `∑ p * log (p + ε)` of a distribution. -/
def negEntropy (logQ : ℚ → ℚ) (v : List ℚ) : ℚ :=
  (v.map (fun p => p * logQ (p + epsFloor))).sum

/-- Epistemic (state-information-gain) term: predicted-observation entropy
minus the expected conditional observation entropy (Bayesian surprise). -/
def stateInfoGainTerm (logQ : ℚ → ℚ) (g : GenModel)
    (qspred : List (List (List ℚ))) : ℚ :=
  (qspred.map (fun qs =>
    ((List.range g.num_obs.length).map (fun m =>
      (0 - negEntropy logQ
          (predictObs g.num_states (g.A.getD m []) (g.num_obs.getD m 0) qs))
      - (((combos g.num_states).zip (g.A.getD m [])).map (fun sa =>
          jointProb qs sa.1 * (0 - negEntropy logQ sa.2))).sum)).sum)).sum

/-- Modelled from the spec (§4.4): parameter information gain.  The spec fixes
only that the term requires the optional Dirichlet pseudo-count tensors
`pA`/`pB` and is zero when they are absent; the inverse-count novelty
weighting used when they are present is one concrete realization. -/
def paramInfoGainTerm (g : GenModel) (pA : Option (List (List (List ℚ))))
    (pB : Option (List (List (List (List ℚ)))))
    (qspred : List (List (List ℚ))) : ℚ :=
  (match pA with
   | none => 0
   | some cA =>
     (qspred.map (fun qs =>
       ((List.range g.num_obs.length).map (fun m =>
         (((combos g.num_states).zip ((g.A.getD m []).zip (cA.getD m []))).map
           (fun sac => jointProb qs sac.1 *
             dot sac.2.1 (sac.2.2.map (fun c => (c + 1)⁻¹)))).sum)).sum)).sum)
  + (match pB with
     | none => 0
     | some cB =>
       (qspred.map (fun qs =>
         ((List.range g.num_states.length).map (fun f =>
           (((g.B.getD f []).zip (cB.getD f [])).map (fun BaCa =>
             (((qs.getD f []).zip (BaCa.1.zip BaCa.2)).map (fun qcc =>
               qcc.1 * dot qcc.2.1
                 (qcc.2.2.map (fun c => (c + 1)⁻¹)))).sum)).sum)).sum)).sum)

/-- Keep only the probability mass strictly above the inductive threshold. -/
def gateVec (thr : ℚ) (v : List ℚ) : List ℚ :=
  v.map (fun x => if thr < x then x else 0)

/-- Maximum of a list of rationals (0 for the empty list). -/
def maxList (l : List ℚ) : ℚ :=
  l.foldr max 0

/-- Thresholded mass from which the goal set of factor `f` (encoded in `H`)
is reachable in at most `d` further transition steps, propagated backwards
through the transition structure with the best action chosen pointwise. -/
def reachVec (g : GenModel) (f : ℕ) (thr : ℚ) : ℕ → List ℚ
  | 0 => gateVec thr ((g.H.getD []).getD f [])
  | d + 1 =>
    gateVec thr ((List.range (g.num_states.getD f 0)).map (fun s =>
      maxList ((g.B.getD f []).map (fun Ba =>
        dot (Ba.getD s []) (reachVec g f thr d)))))

/-- Modelled from the spec (§4.4): inductive planning bonus — over up to
`depth` forward steps, the gated goal-reaching mass of the policy's final
predicted belief, summed per factor; identically the empty sum when
`depth = 0`. -/
def inductiveTerm (g : GenModel) (depth : ℕ) (thr : ℚ)
    (qspred : List (List (List ℚ))) : ℚ :=
  ((List.range depth).map (fun d =>
    ((List.range g.num_states.length).map (fun f =>
      dot ((qspred.getLastD []).getD f []) (reachVec g f thr d))).sum)).sum

/-- Construction-time EFE configuration (spec §6): term toggles, inductive
depth and inductive threshold. -/
structure EFEConfig where
  use_utility : Bool
  use_states_info_gain : Bool
  use_param_info_gain : Bool
  use_inductive : Bool
  inductive_depth : ℕ
  inductive_threshold : ℚ

/-- Per-policy score (`neg_efe`): roll the belief forward through the policy
and sum the enabled terms with unit weight (spec §4.4). -/
def policyScore (logQ : ℚ → ℚ) (g : GenModel) (cfg : EFEConfig)
    (pA : Option (List (List (List ℚ))))
    (pB : Option (List (List (List (List ℚ)))))
    (qs : List (List ℚ)) (pol : List (List ℕ)) : ℚ :=
  (if cfg.use_utility then utilityTerm logQ g (rollout g pol qs) else 0)
  + (if cfg.use_states_info_gain then
      stateInfoGainTerm logQ g (rollout g pol qs)
    else 0)
  + (if cfg.use_param_info_gain then
      paramInfoGainTerm g pA pB (rollout g pol qs)
    else 0)
  + (if cfg.use_inductive then
      inductiveTerm g cfg.inductive_depth cfg.inductive_threshold
        (rollout g pol qs)
    else 0)

/-- Modelled from the spec (§4.4–4.5 `infer_policies`, absent from `src/`):
score every enumerated policy independently, then form the policy posterior
as the softmax of the per-policy scores.  Returns
`(policy_posterior, neg_efe)`. -/
def infer_policies (expQ logQ : ℚ → ℚ) (g : GenModel) (cfg : EFEConfig)
    (pA : Option (List (List (List ℚ))))
    (pB : Option (List (List (List (List ℚ)))))
    (policies : List (List (List ℕ))) (qs : List (List ℚ)) :
    List ℚ × List ℚ :=
  let scores := policies.map (policyScore logQ g cfg pA pB qs)
  (softmaxScores expQ scores, scores)

/-- Batched policy inference: one independent row per (model, belief) pair. -/
def infer_policiesBatch (expQ logQ : ℚ → ℚ)
    (rows : List (GenModel × List (List ℚ))) (cfg : EFEConfig)
    (pA : Option (List (List (List ℚ))))
    (pB : Option (List (List (List (List ℚ)))))
    (policies : List (List (List ℕ))) : List (List ℚ × List ℚ) :=
  rows.map (fun row => infer_policies expQ logQ row.1 cfg pA pB policies row.2)

/-! ## ActionSampler -/

/-- First-timestep action of a policy for factor `f`. -/
def firstAction (pol : List (List ℕ)) (f : ℕ) : ℕ :=
  (pol.headD []).getD f 0

/-- Marginal of the policy posterior over factor `f`'s first-timestep action:
posterior mass summed over all policies sharing that first action. -/
def marginalFirstAction (policies : List (List (List ℕ))) (qpi : List ℚ)
    (f : ℕ) (nAf : ℕ) : List ℚ :=
  (List.range nAf).map (fun a =>
    ((policies.zip qpi).map (fun pq =>
      if firstAction pq.1 f = a then pq.2 else 0)).sum)

/-- Inverse-CDF draw: the first index whose cumulative mass exceeds `u`. -/
def invCDF : List ℚ → ℚ → ℕ
  | [], _ => 0
  | p :: ps, u => if u < p then 0 else invCDF ps (u - p) + 1

/-- Modelled from the spec (§4.6 `ActionSampler.sample_action`, absent from
`src/`): marginalize the policy posterior over each factor's first-timestep
action, then draw one index per factor by inverse-CDF sampling against the
row's random stream `us` (one uniform draw per factor). -/
def sample_action (num_controls : List ℕ) (policies : List (List (List ℕ)))
    (qpi : List ℚ) (us : List ℚ) : List ℕ :=
  (List.range num_controls.length).map (fun f =>
    invCDF (marginalFirstAction policies qpi f (num_controls.getD f 0))
      (us.getD f 0))

/-- Batched action sampling: one independent (posterior, stream) row each. -/
def sample_actionBatch (num_controls : List ℕ)
    (policies : List (List (List ℕ))) (rows : List (List ℚ × List ℚ)) :
    List (List ℕ) :=
  rows.map (fun row => sample_action num_controls policies row.1 row.2)

/-! ## GenerativeModel construction-time validation -/

/-- Batched raw tensors handed to the generative-model constructor, together
with the declared dimensions.  Each tensor carries its batch rows explicitly
(`A[m][row]`, `B[f][row]`, `C[m][row]`, `D[f][row]`, `E[row]`,
`H[f][row]`). -/
structure RawTensors where
  num_obs : List ℕ
  num_states : List ℕ
  num_controls : List ℕ
  batch : ℕ
  A : List (List (List (List ℚ)))
  B : List (List (List (List (List ℚ))))
  C : List (List (List ℚ))
  D : List (List (List ℚ))
  E : Option (List (List ℚ))
  H : Option (List (List (List ℚ)))

/-- Construction-time validation errors (spec §7). -/
inductive ModelError where
  | shapeMismatch : ModelError
  | normalization : ModelError
deriving DecidableEq

/-- Every tensor axis has the declared cardinality and every tensor has the
declared batch size (spec §4.1). -/
def ShapesOK (r : RawTensors) : Prop :=
  (r.A.length = r.num_obs.length
    ∧ ∀ m, m < r.num_obs.length →
      (r.A.getD m []).length = r.batch
      ∧ ∀ rowA ∈ r.A.getD m [],
          rowA.length = (combos r.num_states).length
          ∧ ∀ d ∈ rowA, d.length = r.num_obs.getD m 0)
  ∧ (r.B.length = r.num_states.length
    ∧ ∀ f, f < r.num_states.length →
      (r.B.getD f []).length = r.batch
      ∧ ∀ rowB ∈ r.B.getD f [],
          rowB.length = r.num_controls.getD f 0
          ∧ ∀ Ba ∈ rowB, Ba.length = r.num_states.getD f 0
            ∧ ∀ col ∈ Ba, col.length = r.num_states.getD f 0)
  ∧ (r.C.length = r.num_obs.length
    ∧ ∀ m, m < r.num_obs.length →
      (r.C.getD m []).length = r.batch
      ∧ ∀ v ∈ r.C.getD m [], v.length = r.num_obs.getD m 0)
  ∧ (r.D.length = r.num_states.length
    ∧ ∀ f, f < r.num_states.length →
      (r.D.getD f []).length = r.batch
      ∧ ∀ v ∈ r.D.getD f [], v.length = r.num_states.getD f 0)
  ∧ (∀ e, r.E = some e → e.length = r.batch)
  ∧ (∀ h, r.H = some h →
      h.length = r.num_states.length
      ∧ ∀ f, f < r.num_states.length →
        (h.getD f []).length = r.batch
        ∧ ∀ v ∈ h.getD f [], v.length = r.num_states.getD f 0)

/-- Every distribution-bearing axis sums to 1 within the `1e-4` tolerance
(spec §4.1). -/
def NormOK (r : RawTensors) : Prop :=
  (∀ m, m < r.num_obs.length →
    (∀ rowA ∈ r.A.getD m [], ∀ d ∈ rowA, |d.sum - 1| ≤ normTol)
    ∧ ∀ v ∈ r.C.getD m [], |v.sum - 1| ≤ normTol)
  ∧ (∀ f, f < r.num_states.length →
    (∀ rowB ∈ r.B.getD f [], ∀ Ba ∈ rowB, ∀ col ∈ Ba, |col.sum - 1| ≤ normTol)
    ∧ ∀ v ∈ r.D.getD f [], |v.sum - 1| ≤ normTol)
  ∧ (∀ e, r.E = some e → ∀ v ∈ e, |v.sum - 1| ≤ normTol)
  ∧ (∀ h, r.H = some h → ∀ hf ∈ h, ∀ v ∈ hf, |v.sum - 1| ≤ normTol)

/-- Executable shape check used by the constructor. -/
def shapeCheck (r : RawTensors) : Bool :=
  ((r.A.length == r.num_obs.length)
    && (List.range r.num_obs.length).all (fun m =>
      ((r.A.getD m []).length == r.batch)
      && (r.A.getD m []).all (fun rowA =>
        (rowA.length == (combos r.num_states).length)
        && rowA.all (fun d => d.length == r.num_obs.getD m 0))))
  && ((r.B.length == r.num_states.length)
    && (List.range r.num_states.length).all (fun f =>
      ((r.B.getD f []).length == r.batch)
      && (r.B.getD f []).all (fun rowB =>
        (rowB.length == r.num_controls.getD f 0)
        && rowB.all (fun Ba =>
          (Ba.length == r.num_states.getD f 0)
          && Ba.all (fun col => col.length == r.num_states.getD f 0)))))
  && ((r.C.length == r.num_obs.length)
    && (List.range r.num_obs.length).all (fun m =>
      ((r.C.getD m []).length == r.batch)
      && (r.C.getD m []).all (fun v => v.length == r.num_obs.getD m 0)))
  && ((r.D.length == r.num_states.length)
    && (List.range r.num_states.length).all (fun f =>
      ((r.D.getD f []).length == r.batch)
      && (r.D.getD f []).all (fun v => v.length == r.num_states.getD f 0)))
  && (match r.E with
      | none => true
      | some e => e.length == r.batch)
  && (match r.H with
      | none => true
      | some h =>
        (h.length == r.num_states.length)
        && (List.range r.num_states.length).all (fun f =>
          ((h.getD f []).length == r.batch)
          && (h.getD f []).all (fun v => v.length == r.num_states.getD f 0)))

/-- Executable normalization check used by the constructor. -/
def normCheck (r : RawTensors) : Bool :=
  ((List.range r.num_obs.length).all (fun m =>
    (r.A.getD m []).all (fun rowA =>
      rowA.all (fun d => decide (|d.sum - 1| ≤ normTol)))
    && (r.C.getD m []).all (fun v => decide (|v.sum - 1| ≤ normTol))))
  && ((List.range r.num_states.length).all (fun f =>
    (r.B.getD f []).all (fun rowB => rowB.all (fun Ba =>
      Ba.all (fun col => decide (|col.sum - 1| ≤ normTol))))
    && (r.D.getD f []).all (fun v => decide (|v.sum - 1| ≤ normTol))))
  && (match r.E with
      | none => true
      | some e => e.all (fun v => decide (|v.sum - 1| ≤ normTol)))
  && (match r.H with
      | none => true
      | some h => h.all (fun hf => hf.all (fun v =>
          decide (|v.sum - 1| ≤ normTol))))

/-- Extract batch row `i` of the validated tensors as one `GenModel`. -/
def buildRow (r : RawTensors) (i : ℕ) : GenModel :=
  ⟨r.num_obs, r.num_states, r.num_controls,
   r.A.map (fun Am => Am.getD i []),
   r.B.map (fun Bf => Bf.getD i []),
   r.C.map (fun Cm => Cm.getD i []),
   r.D.map (fun Df => Df.getD i []),
   r.E.map (fun e => e.getD i []),
   r.H.map (fun h => h.map (fun hf => hf.getD i []))⟩

/-- Modelled from the spec (§4.1 `GenerativeModel` constructor, absent from
`src/` — only its call sites appear there): validate shapes first, then
normalization, failing fast with `ShapeMismatchError` respectively
`NormalizationError`; only when both checks pass is the (per-row) model
returned. -/
def mkGenerativeModel (r : RawTensors) : Except ModelError (List GenModel) :=
  if shapeCheck r then
    if normCheck r then
      Except.ok ((List.range r.batch).map (buildRow r))
    else
      Except.error ModelError.normalization
  else
    Except.error ModelError.shapeMismatch

/-! ## Per-row validity predicates used by the runtime theorems -/

/-- A single-row likelihood tensor is well-shaped and observation-normalized. -/
def AValid (g : GenModel) : Prop :=
  g.A.length = g.num_obs.length
  ∧ ∀ m, m < g.num_obs.length →
      (g.A.getD m []).length = (combos g.num_states).length
      ∧ ∀ row ∈ g.A.getD m [], row.length = g.num_obs.getD m 0 ∧ row.sum = 1

/-- A single-row transition tensor is well-shaped and column-stochastic. -/
def BValid (g : GenModel) : Prop :=
  g.B.length = g.num_states.length
  ∧ g.num_controls.length = g.num_states.length
  ∧ ∀ f, f < g.num_states.length →
      (g.B.getD f []).length = g.num_controls.getD f 0
      ∧ ∀ Ba ∈ g.B.getD f [], Ba.length = g.num_states.getD f 0
        ∧ ∀ col ∈ Ba, col.length = g.num_states.getD f 0 ∧ col.sum = 1

/-- A factorized belief is well-shaped and per-factor normalized. -/
def BeliefWF (g : GenModel) (qs : List (List ℚ)) : Prop :=
  qs.length = g.num_states.length
  ∧ ∀ f, f < g.num_states.length →
      (qs.getD f []).length = g.num_states.getD f 0
      ∧ (qs.getD f []).sum = 1

/-- The preference vector of every modality is uniform. -/
def CUniform (g : GenModel) : Prop :=
  g.C.length = g.num_obs.length
  ∧ ∀ m, m < g.num_obs.length →
      g.C.getD m [] = List.replicate (g.num_obs.getD m 0)
        (((g.num_obs.getD m 0 : ℚ))⁻¹)

/-- A per-factor action vector selects an existing transition slice. -/
def ActionsValid (g : GenModel) (acts : List ℕ) : Prop :=
  ∀ f, f < g.num_states.length → acts.getD f 0 < (g.B.getD f []).length

/-- Every step of a policy selects existing transition slices. -/
def PolicyValid (g : GenModel) (pol : List (List ℕ)) : Prop :=
  ∀ acts ∈ pol, ActionsValid g acts

/-! ## Small concrete instances used to exercise the theorems -/

/-- One-modality, one-factor, one-state, one-action model. -/
def gTest : GenModel :=
  ⟨[1], [1], [1], [[[1]]], [[[[1]]]], [[1]], [[1]], none, none⟩

/-- One-modality, one-factor, one-state model with two actions. -/
def gTest2 : GenModel :=
  ⟨[1], [1], [2], [[[1]]], [[[[1]], [[1]]]], [[1]], [[1]], none, none⟩

/-- Raw tensors whose `A` list is missing a modality (shape mismatch). -/
def rBad : RawTensors :=
  ⟨[1], [1], [1], 1, [], [[[[[1]]]]], [[[1]]], [[[1]]], none, none⟩

/-- Raw tensors that are well-shaped but whose `D` vector sums to 5. -/
def rNorm : RawTensors :=
  ⟨[1], [1], [1], 1, [[[[1]]]], [[[[[1]]]]], [[[1]]], [[[5]]], none, none⟩

/-- Raw tensors that pass both validation stages. -/
def rGood : RawTensors :=
  ⟨[1], [1], [1], 1, [[[[1]]]], [[[[[1]]]]], [[[1]]], [[[1]]], none, none⟩

/-! ## General lemmas -/

theorem sum_normalizeVec (v : List ℚ) (h : v.sum ≠ 0) :
    (normalizeVec v).sum = 1 := by
  unfold normalizeVec
  rw [show (fun x => x / v.sum) = fun x => x * (v.sum)⁻¹ by funext x; rw [div_eq_mul_inv]]
  rw [List.sum_map_mul_right, List.map_id', mul_inv_cancel₀ h]

theorem sum_pos_of_forall_pos (v : List ℚ) (hne : v ≠ []) (h : ∀ x ∈ v, 0 < x) :
    0 < v.sum :=
  List.sum_pos v h hne

theorem sum_softmaxScores (expQ : ℚ → ℚ) (hpos : ∀ x, 0 < expQ x)
    (v : List ℚ) (hne : v ≠ []) : (softmaxScores expQ v).sum = 1 := by
  unfold softmaxScores
  apply sum_normalizeVec
  have : 0 < (v.map expQ).sum := by
    apply sum_pos_of_forall_pos
    · simpa using hne
    · intro x hx
      rcases List.mem_map.1 hx with ⟨y, _, rfl⟩
      exact hpos y
  exact ne_of_gt this

theorem length_prodLists {α : Type} (ls : List (List α)) :
    (prodLists ls).length = (ls.map List.length).prod := by
  induction ls with
  | nil => rfl
  | cons l ls ih =>
    simp [prodLists, List.length_flatMap, Function.comp_def, ih, List.map_const',
      List.sum_replicate, smul_eq_mul]

theorem mem_prodLists {α : Type} (ls : List (List α)) (p : List α) :
    p ∈ prodLists ls ↔ List.Forall₂ (· ∈ ·) p ls := by
  induction ls generalizing p with
  | nil =>
    simp [prodLists, List.forall₂_nil_right_iff]
  | cons l ls ih =>
    simp only [prodLists, List.mem_flatMap, List.mem_map]
    constructor
    · rintro ⟨x, hx, t, ht, rfl⟩
      exact List.Forall₂.cons hx ((ih t).1 ht)
    · intro h
      cases h with
      | cons hx ht => exact ⟨_, hx, _, (ih _).2 ht, rfl⟩

theorem pairwise_lex_flatMap {α : Type} (r : α → α → Prop) (qs : List (List α))
    (hq : qs.Pairwise (List.Lex r)) (l : List α) (hl : l.Pairwise r) :
    (l.flatMap (fun x => qs.map (fun t => x :: t))).Pairwise (List.Lex r) := by
  induction l with
  | nil => simp
  | cons x xs ihx =>
    rw [List.flatMap_cons, List.pairwise_append]
    rcases List.pairwise_cons.1 hl with ⟨hx, hxs⟩
    refine ⟨?_, ihx hxs, ?_⟩
    · rw [List.pairwise_map]
      exact hq.imp (fun hab => List.Lex.cons hab)
    · intro a ha b hb
      rcases List.mem_map.1 ha with ⟨t, _, rfl⟩
      rcases List.mem_flatMap.1 hb with ⟨y, hy, hb'⟩
      rcases List.mem_map.1 hb' with ⟨t', _, rfl⟩
      exact List.Lex.rel (hx y hy)

theorem pairwise_lex_prodLists {α : Type} (r : α → α → Prop) (ls : List (List α))
    (h : ∀ l ∈ ls, l.Pairwise r) : (prodLists ls).Pairwise (List.Lex r) := by
  induction ls with
  | nil => simp [prodLists]
  | cons l ls ih =>
    exact pairwise_lex_flatMap r (prodLists ls)
      (ih fun l' hl' => h l' (List.mem_cons_of_mem _ hl'))
      l (h l (List.mem_cons_self l ls))

theorem forall₂_replicate_right {α β : Type} {R : α → β → Prop} {b : β} :
    ∀ {n : ℕ} {p : List α},
      List.Forall₂ R p (List.replicate n b) ↔ p.length = n ∧ ∀ a ∈ p, R a b := by
  intro n
  induction n with
  | zero =>
    intro p
    cases p <;> simp [List.replicate]
  | succ m ih =>
    intro p
    cases p with
    | nil => simp [List.replicate]
    | cons a p' =>
      simp only [List.replicate, List.forall₂_cons, ih, List.length_cons,
        List.mem_cons]
      constructor
      · rintro ⟨hab, hlen, hall⟩
        exact ⟨by omega, by rintro x (rfl | hx); exact hab; exact hall x hx⟩
      · rintro ⟨hlen, hall⟩
        exact ⟨hall a (Or.inl rfl), by omega, fun x hx => hall x (Or.inr hx)⟩

theorem length_actionCombos (nc : List ℕ) :
    (prodLists (nc.map List.range)).length = nc.prod := by
  rw [length_prodLists, List.map_map]
  congr 1
  simp [Function.comp_def]

theorem mem_prodRanges (nc : List ℕ) (s : List ℕ)
    (hs : s ∈ prodLists (nc.map List.range)) :
    s.length = nc.length ∧ ∀ f, f < nc.length → s.getD f 0 < nc.getD f 0 := by
  rw [mem_prodLists] at hs
  induction nc generalizing s with
  | nil =>
    cases hs
    simp
  | cons n nc ih =>
    rw [List.map_cons] at hs
    cases s with
    | nil => cases hs
    | cons a s' =>
      rw [List.forall₂_cons] at hs
      rcases hs with ⟨ha, htail⟩
      rcases ih s' htail with ⟨hlen, hbound⟩
      refine ⟨by simp [hlen], ?_⟩
      intro f hf
      cases f with
      | zero => simpa [List.mem_range] using ha
      | succ g =>
        simp only [List.getD_cons_succ]
        exact hbound g (by simpa using hf)

theorem construct_policies_bounds (nc : List ℕ) (len : ℕ) (p : List (List ℕ))
    (hp : p ∈ construct_policies nc len) :
    p.length = len ∧ ∀ s ∈ p,
      s.length = nc.length ∧ ∀ f, f < nc.length → s.getD f 0 < nc.getD f 0 := by
  rw [construct_policies, mem_prodLists, forall₂_replicate_right] at hp
  exact ⟨hp.1, fun s hs => mem_prodRanges nc s (hp.2 s hs)⟩

/-- **C2.**  `construct_policies` returns exactly
`(∏ f, num_controls[f]) ^ policy_len` policies, in deterministic
lexicographic order over per-factor action indices (strictly increasing in
the lexicographic order on action sequences, so the enumeration has no
duplicates and the policy-index ↔ action-sequence map is stable); a factor
with `num_controls[f] = 1` contributes only the null action `0`; and
re-invoking with identical arguments returns an identical ordered sequence. -/
theorem construct_policies_spec (num_controls : List ℕ) (policy_len : ℕ) :
    (construct_policies num_controls policy_len).length
        = num_controls.prod ^ policy_len
      ∧ (construct_policies num_controls policy_len).Pairwise
          (List.Lex (List.Lex (· < ·)))
      ∧ (∀ p ∈ construct_policies num_controls policy_len, ∀ s ∈ p, ∀ f,
          f < num_controls.length → num_controls.getD f 0 = 1 →
            s.getD f 0 = 0)
      ∧ construct_policies num_controls policy_len
          = construct_policies num_controls policy_len := by
  refine ⟨?_, ?_, ?_, rfl⟩
  · rw [construct_policies, length_prodLists, List.map_replicate,
      List.prod_replicate, length_actionCombos]
  · apply pairwise_lex_prodLists
    intro l hl
    rcases (List.mem_replicate.1 hl) with ⟨-, rfl⟩
    apply pairwise_lex_prodLists
    intro l' hl'
    rcases List.mem_map.1 hl' with ⟨n, -, rfl⟩
    exact List.pairwise_lt_range n
  · intro p hp s hs f hf hone
    have h := ((construct_policies_bounds num_controls policy_len p hp).2
      s hs).2 f hf
    omega

theorem sum_range_getD (l : List ℚ) :
    ((List.range l.length).map (fun j => l.getD j 0)).sum = l.sum := by
  induction l with
  | nil => simp
  | cons a l ih =>
    rw [List.length_cons, List.range_succ_eq_map, List.map_cons, List.map_map]
    simp only [Function.comp_def, List.getD_cons_zero, List.getD_cons_succ,
      List.sum_cons]
    rw [ih]

theorem sum_map_swap {α β : Type} (l₁ : List α) (l₂ : List β) (f : α → β → ℚ) :
    (l₁.map (fun x => (l₂.map (f x)).sum)).sum
      = (l₂.map (fun y => (l₁.map (fun x => f x y)).sum)).sum := by
  induction l₁ with
  | nil => simp
  | cons x l ih =>
    simp only [List.map_cons, List.sum_cons, ih, List.sum_map_add]

theorem sum_flatMapQ {α : Type} (l : List α) (g : α → List ℚ) :
    (l.flatMap g).sum = (l.map (fun x => (g x).sum)).sum := by
  induction l with
  | nil => simp
  | cons x xs ih => simp [List.flatMap_cons, List.sum_append, ih]

theorem length_matVec (n : ℕ) (w : List ℚ) (vs : List (List ℚ)) :
    (matVec n w vs).length = n := by
  simp [matVec]

theorem sum_matVec (n : ℕ) (w : List ℚ) (vs : List (List ℚ))
    (hw : w.length = vs.length)
    (hlen : ∀ v ∈ vs, v.length = n) (hsum : ∀ v ∈ vs, v.sum = 1) :
    (matVec n w vs).sum = w.sum := by
  unfold matVec
  rw [sum_map_swap (List.range n) (w.zip vs) (fun j p => p.1 * p.2.getD j 0)]
  have hrow : ∀ p ∈ w.zip vs,
      ((List.range n).map (fun j => p.1 * p.2.getD j 0)).sum = p.1 := by
    intro p hp
    rcases List.of_mem_zip hp with ⟨-, hv⟩
    rw [List.sum_map_mul_left]
    rw [show n = p.2.length from (hlen p.2 hv).symm, sum_range_getD,
      hsum p.2 hv, mul_one]
  rw [List.map_congr_left hrow]
  rw [List.map_fst_zip w vs (le_of_eq hw)]

theorem sum_jointProb (dims : List ℕ) (qs : List (List ℚ))
    (hq : List.Forall₂ (fun (q : List ℚ) n => q.length = n) qs dims) :
    ((combos dims).map (jointProb qs)).sum = (qs.map List.sum).prod := by
  induction hq with
  | nil => simp [combos, prodLists, jointProb]
  | cons hqn htail ih =>
    rename_i q n qs' dims'
    unfold combos at ih ⊢
    rw [List.map_cons]
    show ((((List.range n).flatMap (fun x =>
      (prodLists (dims'.map List.range)).map (fun t => x :: t))).map
        (jointProb (q :: qs'))).sum = _)
    rw [List.map_flatMap, sum_flatMapQ]
    have hx : ∀ x : ℕ,
        (((prodLists (dims'.map List.range)).map (fun t => x :: t)).map
          (jointProb (q :: qs'))).sum
        = q.getD x 0 * ((prodLists (dims'.map List.range)).map
            (jointProb qs')).sum := by
      intro x
      rw [List.map_map]
      rw [show (jointProb (q :: qs') ∘ fun t => x :: t)
          = fun t => q.getD x 0 * jointProb qs' t by
        funext t
        simp [jointProb, Function.comp_def]]
      rw [List.sum_map_mul_left]
    rw [List.map_congr_left (fun x _ => hx x)]
    rw [List.sum_map_mul_right, ← hqn, sum_range_getD, ih]
    simp [mul_comm]

theorem sum_predictObs (dims : List ℕ) (Am : List (List ℚ)) (numObsM : ℕ)
    (qs : List (List ℚ))
    (hA : Am.length = (combos dims).length)
    (hrow : ∀ row ∈ Am, row.length = numObsM ∧ row.sum = 1)
    (hq : List.Forall₂ (fun (q : List ℚ) n => q.length = n) qs dims)
    (hq1 : ∀ q ∈ qs, q.sum = 1) :
    (predictObs dims Am numObsM qs).sum = 1 := by
  unfold predictObs
  rw [sum_matVec numObsM _ Am (by simp [hA]) (fun v hv => (hrow v hv).1)
    (fun v hv => (hrow v hv).2)]
  rw [sum_jointProb dims qs hq]
  apply List.prod_eq_one
  intro x hx
  rcases List.mem_map.1 hx with ⟨q, hq', rfl⟩
  exact hq1 q hq'

theorem getD_mem {α : Type} (l : List α) (i : ℕ) (d : α) (h : i < l.length) :
    l.getD i d ∈ l := by
  rw [List.getD_eq_getElem?_getD, List.getElem?_eq_getElem h]
  exact List.getElem_mem h

theorem getD_map_range {β : Type} (gfun : ℕ → β) (n i : ℕ) (d : β)
    (h : i < n) : ((List.range n).map gfun).getD i d = gfun i := by
  rw [List.getD_eq_getElem?_getD, List.getElem?_map, List.getElem?_range h]
  rfl

theorem getD_map_lt {α β : Type} [Inhabited α] [Inhabited β] (l : List α)
    (fn : α → β) (i : ℕ) (h : i < l.length) :
    (l.map fn).getD i default = fn (l.getD i default) := by
  rw [List.getD_eq_getElem?_getD, List.getElem?_map, List.getElem?_eq_getElem h,
    List.getD_eq_getElem?_getD, List.getElem?_eq_getElem h]
  rfl

/-! ## StateEstimator lemmas -/

theorem length_updateFactor (expQ logQ : ℚ → ℚ) (g : GenModel) (obs : List ℕ)
    (prior qs : List (List ℚ)) (f : ℕ) :
    (updateFactor expQ logQ g obs prior qs f).length = g.num_states.getD f 0 := by
  simp [updateFactor, softmaxScores, normalizeVec]

theorem sum_updateFactor (expQ logQ : ℚ → ℚ) (hpos : ∀ x, 0 < expQ x)
    (g : GenModel) (obs : List ℕ) (prior qs : List (List ℚ)) (f : ℕ)
    (hf : 0 < g.num_states.getD f 0) :
    (updateFactor expQ logQ g obs prior qs f).sum = 1 := by
  apply sum_softmaxScores expQ hpos
  apply List.length_pos.mp
  simpa using hf

theorem length_sweepAux (expQ logQ : ℚ → ℚ) (g : GenModel) (obs : List ℕ)
    (prior : List (List ℚ)) (fs : List ℕ) (qs : List (List ℚ)) :
    (sweepAux expQ logQ g obs prior fs qs).length = qs.length := by
  induction fs generalizing qs with
  | nil => rfl
  | cons f fs ih =>
    rw [sweepAux, ih, List.length_set]

theorem sweepAux_getD_not_mem (expQ logQ : ℚ → ℚ) (g : GenModel)
    (obs : List ℕ) (prior : List (List ℚ)) (fs : List ℕ)
    (qs : List (List ℚ)) (f : ℕ) (hf : f ∉ fs) :
    (sweepAux expQ logQ g obs prior fs qs).getD f [] = qs.getD f [] := by
  induction fs generalizing qs with
  | nil => rfl
  | cons f' fs ih =>
    rw [sweepAux, ih _ (fun h => hf (List.mem_cons_of_mem _ h))]
    have hne : f' ≠ f := fun h => hf (h ▸ List.mem_cons_self _ _)
    rw [List.getD_eq_getElem?_getD, List.getElem?_set_ne hne,
      ← List.getD_eq_getElem?_getD]

theorem sum_sweepAux (expQ logQ : ℚ → ℚ) (hpos : ∀ x, 0 < expQ x)
    (g : GenModel) (obs : List ℕ) (prior : List (List ℚ)) (fs : List ℕ)
    (qs : List (List ℚ)) (hnd : fs.Nodup) (hlen : ∀ f ∈ fs, f < qs.length)
    (hdims : ∀ f ∈ fs, 0 < g.num_states.getD f 0) :
    ∀ f ∈ fs, ((sweepAux expQ logQ g obs prior fs qs).getD f []).sum = 1 := by
  induction fs generalizing qs with
  | nil => simp
  | cons f' fs ih =>
    rcases List.nodup_cons.1 hnd with ⟨hf'mem, hndtail⟩
    intro f hf
    rcases List.mem_cons.1 hf with rfl | hmem
    · rw [sweepAux, sweepAux_getD_not_mem _ _ _ _ _ _ _ _ hf'mem,
        List.getD_eq_getElem?_getD,
        List.getElem?_set_self (hlen f (List.mem_cons_self _ _))]
      exact sum_updateFactor expQ logQ hpos g obs prior qs f
        (hdims f (List.mem_cons_self _ _))
    · rw [sweepAux]
      exact ih _ hndtail
        (fun x hx => by
          rw [List.length_set]; exact hlen x (List.mem_cons_of_mem _ hx))
        (fun x hx => hdims x (List.mem_cons_of_mem _ hx)) f hmem

theorem length_sweep (expQ logQ : ℚ → ℚ) (g : GenModel) (obs : List ℕ)
    (prior qs : List (List ℚ)) :
    (sweep expQ logQ g obs prior qs).length = qs.length :=
  length_sweepAux expQ logQ g obs prior _ qs

theorem sum_sweep (expQ logQ : ℚ → ℚ) (hpos : ∀ x, 0 < expQ x) (g : GenModel)
    (obs : List ℕ) (prior qs : List (List ℚ))
    (hqlen : qs.length = g.num_states.length)
    (hdims : ∀ n ∈ g.num_states, 0 < n) :
    ∀ f, f < g.num_states.length →
      ((sweep expQ logQ g obs prior qs).getD f []).sum = 1 := by
  intro f hf
  apply sum_sweepAux expQ logQ hpos g obs prior _ qs (List.nodup_range _)
    (fun x hx => by rw [hqlen]; exact List.mem_range.1 hx)
    (fun x hx => hdims _ (getD_mem _ _ _ ((List.mem_range.1 hx))))
    f (List.mem_range.2 hf)

theorem fpiAux_sweeps_le (step : List (List ℚ) → List (List ℚ)) (tol : ℚ) :
    ∀ (n : ℕ) (qs : List (List ℚ)), (fpiAux step tol n qs).2.1 ≤ n := by
  intro n
  induction n with
  | zero => intro qs; simp [fpiAux]
  | succ m ih =>
    intro qs
    rw [fpiAux]
    by_cases h : maxDiff qs (step qs) < tol
    · simp [h]
    · simp only [h, if_false]
      exact Nat.succ_le_succ (ih (step qs))

theorem fpiAux_not_converged (step : List (List ℚ) → List (List ℚ)) (tol : ℚ) :
    ∀ (n : ℕ) (qs : List (List ℚ)), (fpiAux step tol n qs).2.2 = false →
      (fpiAux step tol n qs).1 = step^[n] qs
      ∧ (fpiAux step tol n qs).2.1 = n := by
  intro n
  induction n with
  | zero => intro qs _; simp [fpiAux]
  | succ m ih =>
    intro qs hc
    rw [fpiAux] at hc ⊢
    by_cases h : maxDiff qs (step qs) < tol
    · simp [h] at hc
    · simp only [h, if_false] at hc ⊢
      rcases ih (step qs) hc with ⟨h1, h2⟩
      exact ⟨by rw [h1, Function.iterate_succ_apply], by rw [h2]⟩

theorem fpiAux_converged (step : List (List ℚ) → List (List ℚ)) (tol : ℚ) :
    ∀ (n : ℕ) (qs : List (List ℚ)), (fpiAux step tol n qs).2.2 = true →
      1 ≤ (fpiAux step tol n qs).2.1
      ∧ (fpiAux step tol n qs).1 = step^[(fpiAux step tol n qs).2.1] qs
      ∧ maxDiff (step^[(fpiAux step tol n qs).2.1 - 1] qs)
          (step^[(fpiAux step tol n qs).2.1] qs) < tol := by
  intro n
  induction n with
  | zero => intro qs hc; simp [fpiAux] at hc
  | succ m ih =>
    intro qs hc
    rw [fpiAux] at hc ⊢
    by_cases h : maxDiff qs (step qs) < tol
    · simp only [h, if_true]
      simpa using h
    · simp only [h, if_false] at hc ⊢
      rcases ih (step qs) hc with ⟨h1, h2, h3⟩
      refine ⟨Nat.le_succ_of_le h1, ?_, ?_⟩
      · rw [h2, Function.iterate_succ_apply]
      · rw [Nat.add_sub_cancel]
        have e1 : step^[(fpiAux step tol m (step qs)).2.1] qs
            = step^[(fpiAux step tol m (step qs)).2.1 - 1] (step qs) := by
          conv_lhs => rw [show (fpiAux step tol m (step qs)).2.1
            = ((fpiAux step tol m (step qs)).2.1 - 1) + 1 by omega]
          rw [Function.iterate_succ_apply]
        have e2 : step^[(fpiAux step tol m (step qs)).2.1 + 1] qs
            = step^[(fpiAux step tol m (step qs)).2.1] (step qs) := by
          rw [Function.iterate_succ_apply]
        rw [e1, e2]
        exact h3

theorem infer_states_normalized (expQ logQ : ℚ → ℚ) (hpos : ∀ x, 0 < expQ x)
    (g : GenModel) (obs : List ℕ) (prior : List (List ℚ)) (numIter : ℕ)
    (tol : ℚ) (hdims : ∀ n ∈ g.num_states, 0 < n) (hcap : 0 < numIter) :
    ∀ f, f < g.num_states.length →
      ((infer_states expQ logQ g obs prior numIter tol).qs.getD f []).sum = 1 := by
  have hlen : ∀ j : ℕ,
      ((sweep expQ logQ g obs prior)^[j] (uniformInit g.num_states)).length
        = g.num_states.length := by
    intro j
    induction j with
    | zero => simp [uniformInit]
    | succ j ih => rw [Function.iterate_succ_apply', length_sweep]; exact ih
  have key : ∀ k : ℕ, 1 ≤ k → ∀ f, f < g.num_states.length →
      (((sweep expQ logQ g obs prior)^[k]
        (uniformInit g.num_states)).getD f []).sum = 1 := by
    intro k hk f hf
    have hk' : k = (k - 1) + 1 := by omega
    rw [hk', Function.iterate_succ_apply']
    exact sum_sweep expQ logQ hpos g obs prior _ (hlen (k - 1)) hdims f hf
  show ∀ f, f < g.num_states.length →
    (((fpiAux (sweep expQ logQ g obs prior) tol numIter
      (uniformInit g.num_states)).1.getD f []).sum = 1)
  intro f hf
  cases hc : (fpiAux (sweep expQ logQ g obs prior) tol numIter
      (uniformInit g.num_states)).2.2 with
  | false =>
    rcases fpiAux_not_converged _ tol numIter _ hc with ⟨h1, -⟩
    rw [h1]
    exact key numIter hcap f hf
  | true =>
    rcases fpiAux_converged _ tol numIter _ hc with ⟨h1, h2, -⟩
    rw [h2]
    exact key _ h1 f hf

/-! ## Belief-propagation lemmas and the normalization invariant -/

theorem propagateFactor_WF (g : GenModel) (f a : ℕ) (q : List ℚ)
    (hB : BValid g) (hf : f < g.num_states.length)
    (ha : a < (g.B.getD f []).length)
    (hq : q.length = g.num_states.getD f 0) (hq1 : q.sum = 1) :
    (propagateFactor g f a q).length = g.num_states.getD f 0
    ∧ (propagateFactor g f a q).sum = 1 := by
  have hBa : (g.B.getD f []).getD a [] ∈ g.B.getD f [] := getD_mem _ _ _ ha
  rcases (hB.2.2 f hf).2 _ hBa with ⟨hBalen, hcols⟩
  refine ⟨length_matVec _ _ _, ?_⟩
  rw [propagateFactor,
    sum_matVec _ _ _ (by rw [hq, hBalen]) (fun v hv => (hcols v hv).1)
      (fun v hv => (hcols v hv).2), hq1]

theorem rolloutStep_WF (g : GenModel) (acts : List ℕ) (qs : List (List ℚ))
    (hB : BValid g) (hA : ActionsValid g acts) (hq : BeliefWF g qs) :
    BeliefWF g (rolloutStep g acts qs) := by
  constructor
  · simp [rolloutStep]
  · intro f hf
    rw [rolloutStep, getD_map_range _ _ _ _ hf]
    exact propagateFactor_WF g f _ _ hB hf (hA f hf) (hq.2 f hf).1 (hq.2 f hf).2

theorem rollout_WF (g : GenModel) (hB : BValid g) :
    ∀ (pol : List (List ℕ)) (qs : List (List ℚ)), PolicyValid g pol →
      BeliefWF g qs → ∀ q ∈ rollout g pol qs, BeliefWF g q := by
  intro pol
  induction pol with
  | nil =>
    intro qs _ _ q hq
    simp [rollout] at hq
  | cons acts rest ih =>
    intro qs hpv hq q hqmem
    rw [rollout] at hqmem
    rcases List.mem_cons.1 hqmem with rfl | hmem
    · exact rolloutStep_WF g acts qs hB (hpv acts (List.mem_cons_self _ _)) hq
    · exact ih _ (fun x hx => hpv x (List.mem_cons_of_mem _ hx))
        (rolloutStep_WF g acts qs hB (hpv acts (List.mem_cons_self _ _)) hq)
        q hmem

/-- **C1.**  For every valid generative model and every timestep, each
per-factor belief returned by `infer_states` sums to 1 within `1e-6` on
every batch row; and every subsequent operation that produces a belief —
the forward rollout inside the EFE evaluator and `update_empirical_prior` —
preserves this normalization. -/
theorem belief_normalization_invariant (expQ logQ : ℚ → ℚ)
    (hpos : ∀ x, 0 < expQ x) :
    (∀ (rows : List (GenModel × List ℕ × List (List ℚ))) (numIter : ℕ)
      (tol : ℚ), 0 < numIter →
      ∀ i, i < rows.length →
        (∀ n ∈ (rows.getD i default).1.num_states, 0 < n) →
        ∀ f, f < (rows.getD i default).1.num_states.length →
          |(((infer_statesBatch expQ logQ rows numIter tol).getD i
              default).qs.getD f []).sum - 1| ≤ beliefTol)
    ∧ (∀ (g : GenModel) (pol : List (List ℕ)) (qs : List (List ℚ)),
        BValid g → PolicyValid g pol → BeliefWF g qs →
        ∀ q ∈ rollout g pol qs, ∀ f, f < g.num_states.length →
          |((q.getD f []).sum) - 1| ≤ beliefTol)
    ∧ (∀ (g : GenModel) (actions : List ℕ) (belief : List (List ℚ))
        (hist : List (List (List ℚ) × List ℕ)),
        BValid g → ActionsValid g actions → BeliefWF g belief →
        ∀ f, f < g.num_states.length →
          |(((update_empirical_prior g actions belief hist).1.getD f []).sum)
            - 1| ≤ beliefTol) := by
  have habs : |(1 : ℚ) - 1| ≤ beliefTol := by norm_num [beliefTol]
  refine ⟨?_, ?_, ?_⟩
  · intro rows numIter tol hcap i hi hdims f hf
    rw [infer_statesBatch, getD_map_lt _ _ i hi]
    rw [infer_states_normalized expQ logQ hpos _ _ _ numIter tol hdims hcap f hf]
    exact habs
  · intro g pol qs hB hpv hq q hmem f hf
    rw [((rollout_WF g hB pol qs hpv hq q hmem).2 f hf).2]
    exact habs
  · intro g actions belief hist hB hA hq f hf
    rw [update_empirical_prior]
    rw [getD_map_range _ _ _ _ hf]
    rw [(propagateFactor_WF g f _ _ hB hf (hA f hf) (hq.2 f hf).1
      (hq.2 f hf).2).2]
    exact habs

/-- **C3.**  `infer_states` terminates on every input: the fixed-point loop
performs at most the hard cap of sweeps; when it stops without reaching the
cap the last belief change was below the tolerance; and when the cap is
reached without convergence the non-fatal `ConvergenceWarning` flag is set
while the last iterate is still returned. -/
theorem infer_states_bounded_sweeps (expQ logQ : ℚ → ℚ) (g : GenModel)
    (obs : List ℕ) (prior : List (List ℚ)) (numIter : ℕ) (tol : ℚ) :
    (infer_states expQ logQ g obs prior numIter tol).sweeps ≤ numIter
    ∧ ((infer_states expQ logQ g obs prior numIter tol).warning = true →
        (infer_states expQ logQ g obs prior numIter tol).sweeps = numIter
        ∧ (infer_states expQ logQ g obs prior numIter tol).qs
            = (sweep expQ logQ g obs prior)^[numIter]
                (uniformInit g.num_states))
    ∧ ((infer_states expQ logQ g obs prior numIter tol).warning = false →
        1 ≤ (infer_states expQ logQ g obs prior numIter tol).sweeps
        ∧ (infer_states expQ logQ g obs prior numIter tol).qs
            = (sweep expQ logQ g obs prior)^[
                (infer_states expQ logQ g obs prior numIter tol).sweeps]
                (uniformInit g.num_states)
        ∧ maxDiff
            ((sweep expQ logQ g obs prior)^[
              (infer_states expQ logQ g obs prior numIter tol).sweeps - 1]
              (uniformInit g.num_states))
            ((sweep expQ logQ g obs prior)^[
              (infer_states expQ logQ g obs prior numIter tol).sweeps]
              (uniformInit g.num_states)) < tol) := by
  refine ⟨fpiAux_sweeps_le _ _ _ _, ?_, ?_⟩
  · intro hw
    have hc : (fpiAux (sweep expQ logQ g obs prior) tol numIter
        (uniformInit g.num_states)).2.2 = false := by
      simpa [infer_states] using hw
    rcases fpiAux_not_converged _ tol numIter _ hc with ⟨h1, h2⟩
    exact ⟨h2, h1⟩
  · intro hw
    have hc : (fpiAux (sweep expQ logQ g obs prior) tol numIter
        (uniformInit g.num_states)).2.2 = true := by
      simpa [infer_states] using hw
    exact fpiAux_converged _ tol numIter _ hc

/-! ## EmpiricalPriorUpdater -/

/-- **C5.**  `update_empirical_prior` returns, for each factor, the
matrix-vector product of the action's transition slice with that factor's
belief, and extends the history by appending `(belief, actions)` while
leaving every previously existing entry unchanged. -/
theorem update_empirical_prior_spec (g : GenModel) (actions : List ℕ)
    (belief : List (List ℚ)) (hist : List (List (List ℚ) × List ℕ)) :
    (∀ f, f < g.num_states.length →
      (update_empirical_prior g actions belief hist).1.getD f []
        = matVec (g.num_states.getD f 0) (belief.getD f [])
            ((g.B.getD f []).getD (actions.getD f 0) []))
    ∧ (update_empirical_prior g actions belief hist).2
        = hist ++ [(belief, actions)]
    ∧ ∀ i, i < hist.length →
        (update_empirical_prior g actions belief hist).2.getD i ([], [])
          = hist.getD i ([], []) := by
  refine ⟨?_, rfl, ?_⟩
  · intro f hf
    rw [update_empirical_prior, getD_map_range _ _ _ _ hf, propagateFactor]
  · intro i hi
    show (hist ++ [(belief, actions)]).getD i ([], []) = hist.getD i ([], [])
    rw [List.getD_eq_getElem?_getD, List.getElem?_append_left hi,
      ← List.getD_eq_getElem?_getD]

/-! ## ActionSampler lemmas -/

theorem sum_zip_ite_zero (policies : List (List (List ℕ))) (q : List ℚ)
    (f a : ℕ) (hz : ∀ i, i < q.length → q.getD i 0 = 0) :
    ((policies.zip q).map (fun pq =>
      if firstAction pq.1 f = a then pq.2 else 0)).sum = 0 := by
  induction policies generalizing q with
  | nil => simp
  | cons pol pols ih =>
    cases q with
    | nil => simp
    | cons x q' =>
      have hx : x = 0 := by simpa using hz 0 (by simp)
      rw [List.zip_cons_cons, List.map_cons, List.sum_cons,
        ih q' (fun i hi => by
          simpa using hz (i + 1) (by simpa using Nat.succ_lt_succ hi))]
      simp [hx]

theorem sum_zip_ite_onehot (policies : List (List (List ℕ))) (q : List ℚ)
    (p f a : ℕ) (hlen : policies.length = q.length) (hp : p < q.length)
    (h1 : q.getD p 0 = 1) (hz : ∀ i, i < q.length → i ≠ p → q.getD i 0 = 0) :
    ((policies.zip q).map (fun pq =>
      if firstAction pq.1 f = a then pq.2 else 0)).sum
      = if firstAction (policies.getD p []) f = a then 1 else 0 := by
  induction policies generalizing q p with
  | nil =>
    rw [List.length_nil] at hlen
    omega
  | cons pol pols ih =>
    cases q with
    | nil => simp at hp
    | cons x q' =>
      cases p with
      | zero =>
        have hx : x = 1 := by simpa using h1
        rw [List.zip_cons_cons, List.map_cons, List.sum_cons,
          sum_zip_ite_zero pols q' f a (fun i hi => by
            simpa using hz (i + 1) (by simpa using Nat.succ_lt_succ hi)
              (Nat.succ_ne_zero i))]
        simp [hx]
      | succ p' =>
        have hx : x = 0 := by
          simpa using hz 0 (by simp) (Ne.symm (Nat.succ_ne_zero p'))
        rw [List.zip_cons_cons, List.map_cons, List.sum_cons,
          ih q' p' (by simpa using hlen) (by simpa using hp)
            (by simpa using h1)
            (fun i hi hne => by
              simpa using hz (i + 1) (by simpa using Nat.succ_lt_succ hi)
                (fun hcon => hne (Nat.succ_injective hcon)))]
        simp [hx]

theorem sum_zip_ite_all (policies : List (List (List ℕ))) (q : List ℚ)
    (f : ℕ) (hall : ∀ pol ∈ policies, firstAction pol f = 0)
    (hlen : policies.length = q.length) :
    ((policies.zip q).map (fun pq =>
      if firstAction pq.1 f = 0 then pq.2 else 0)).sum = q.sum := by
  induction policies generalizing q with
  | nil =>
    rw [List.length_nil] at hlen
    cases q with
    | nil => simp
    | cons x q' => simp at hlen
  | cons pol pols ih =>
    cases q with
    | nil => simp at hlen
    | cons x q' =>
      rw [List.zip_cons_cons, List.map_cons, List.sum_cons,
        if_pos (hall pol (List.mem_cons_self _ _)),
        ih q' (fun pl hpl => hall pl (List.mem_cons_of_mem _ hpl))
          (by simpa using hlen), List.sum_cons]

theorem invCDF_onehot (l : List ℚ) (k : ℕ) (u : ℚ) (hk : k < l.length)
    (hz : ∀ i, i < k → l.getD i 0 = 0) (h1 : l.getD k 0 = 1)
    (hu0 : 0 ≤ u) (hu1 : u < 1) : invCDF l u = k := by
  induction l generalizing k u with
  | nil => simp at hk
  | cons x xs ih =>
    cases k with
    | zero =>
      have hx : x = 1 := by simpa using h1
      rw [invCDF, if_pos (by rw [hx]; exact hu1)]
    | succ k' =>
      have hx : x = 0 := by simpa using hz 0 (Nat.succ_pos k')
      rw [invCDF, if_neg (by rw [hx]; exact not_lt.2 hu0), hx, sub_zero,
        ih k' u (by simpa using hk)
          (fun i hi => by simpa using hz (i + 1) (Nat.succ_lt_succ hi))
          (by simpa using h1) hu0 hu1]

theorem stream_entry_valid (us : List ℚ) (hus : ∀ u ∈ us, 0 ≤ u ∧ u < 1)
    (f : ℕ) : 0 ≤ us.getD f 0 ∧ us.getD f 0 < 1 := by
  by_cases hf : f < us.length
  · exact hus _ (getD_mem _ _ _ hf)
  · rw [List.getD_eq_getElem?_getD, List.getElem?_eq_none (by omega)]
    norm_num

/-- **C6.**  A degenerate policy posterior (probability 1 on one policy and 0
elsewhere) makes `sample_action` return exactly that policy's first-timestep
action for every controllable factor, for every valid random stream; hence
the sampled action is identical for every supplied random stream. -/
theorem sample_action_degenerate (nc : List ℕ) (len : ℕ) (qpi : List ℚ)
    (p : ℕ) (hlen0 : 0 < len)
    (hq : qpi.length = (construct_policies nc len).length)
    (hp : p < qpi.length) (h1 : qpi.getD p 0 = 1)
    (hz : ∀ i, i < qpi.length → i ≠ p → qpi.getD i 0 = 0) :
    (∀ us, (∀ u ∈ us, 0 ≤ u ∧ u < 1) →
      ∀ f, f < nc.length →
        (sample_action nc (construct_policies nc len) qpi us).getD f 0
          = firstAction ((construct_policies nc len).getD p []) f)
    ∧ ∀ us us', (∀ u ∈ us, 0 ≤ u ∧ u < 1) → (∀ u ∈ us', 0 ≤ u ∧ u < 1) →
        sample_action nc (construct_policies nc len) qpi us
          = sample_action nc (construct_policies nc len) qpi us' := by
  have hplt : p < (construct_policies nc len).length := hq ▸ hp
  have hmem : (construct_policies nc len).getD p []
      ∈ construct_policies nc len := getD_mem _ _ _ hplt
  rcases construct_policies_bounds nc len _ hmem with ⟨hplen, hsteps⟩
  have hne : (construct_policies nc len).getD p [] ≠ [] := by
    apply List.ne_nil_of_length_pos
    omega
  have hheadmem : ((construct_policies nc len).getD p []).headD []
      ∈ (construct_policies nc len).getD p [] := by
    cases hcase : (construct_policies nc len).getD p [] with
    | nil => exact absurd hcase hne
    | cons s rest => simp
  have core : ∀ us : List ℚ, (∀ u ∈ us, 0 ≤ u ∧ u < 1) → ∀ f, f < nc.length →
      invCDF (marginalFirstAction (construct_policies nc len) qpi f
        (nc.getD f 0)) (us.getD f 0)
      = firstAction ((construct_policies nc len).getD p []) f := by
    intro us hus f hf
    have hfa : firstAction ((construct_policies nc len).getD p []) f
        < nc.getD f 0 :=
      (hsteps _ hheadmem).2 f hf
    have hmarg : ∀ a, a < nc.getD f 0 →
        (marginalFirstAction (construct_policies nc len) qpi f
          (nc.getD f 0)).getD a 0
        = if firstAction ((construct_policies nc len).getD p []) f = a
          then 1 else 0 := by
      intro a ha
      rw [marginalFirstAction, getD_map_range _ _ _ _ ha]
      exact sum_zip_ite_onehot _ qpi p f a hq.symm hp h1 hz
    rcases stream_entry_valid us hus f with ⟨hu0, hu1⟩
    apply invCDF_onehot _ _ _ ?_ ?_ ?_ hu0 hu1
    · simpa [marginalFirstAction] using hfa
    · intro i hi
      rw [hmarg i (lt_trans hi hfa)]
      exact if_neg (by omega)
    · rw [hmarg _ hfa]
      exact if_pos rfl
  constructor
  · intro us hus f hf
    rw [sample_action, getD_map_range _ _ _ _ hf]
    exact core us hus f hf
  · intro us us' hus hus'
    unfold sample_action
    apply List.map_congr_left
    intro f hfmem
    have hf : f < nc.length := List.mem_range.1 hfmem
    rw [core us hus f hf, core us' hus' f hf]

/-- **C9.**  For every factor with `num_controls[f] = 1` (uncontrollable
factor), `sample_action` returns action index 0 for that factor, for every
policy posterior and every valid random stream. -/
theorem sample_action_null_action (nc : List ℕ) (len : ℕ) (qpi us : List ℚ)
    (f : ℕ) (hf : f < nc.length) (hone : nc.getD f 0 = 1)
    (hq : qpi.length = (construct_policies nc len).length)
    (hsum : qpi.sum = 1) (hus : ∀ u ∈ us, 0 ≤ u ∧ u < 1) :
    (sample_action nc (construct_policies nc len) qpi us).getD f 0 = 0 := by
  rw [sample_action, getD_map_range _ _ _ _ hf]
  have hall : ∀ pol ∈ construct_policies nc len, firstAction pol f = 0 := by
    intro pol hpol
    rcases construct_policies_bounds nc len pol hpol with ⟨-, hsteps⟩
    cases pol with
    | nil => simp [firstAction, List.headD]
    | cons s rest =>
      have hlt := (hsteps s (List.mem_cons_self _ _)).2 f hf
      rw [hone] at hlt
      simp only [firstAction, List.headD]
      omega
  rcases stream_entry_valid us hus f with ⟨hu0, hu1⟩
  rw [hone]
  apply invCDF_onehot _ _ _ ?_ ?_ ?_ hu0 hu1
  · simp [marginalFirstAction]
  · intro i hi
    omega
  · rw [marginalFirstAction, getD_map_range _ _ _ _ (by norm_num : (0 : ℕ) < 1),
      sum_zip_ite_all _ qpi f hall hq.symm, hsum]

/-! ## Inductive term at depth zero -/

/-- **C7.**  When `inductive_depth = 0`, the inductive term of the EFE score
is exactly 0 for every policy, for every goal tensor `H` (carried inside the
model) and every inductive threshold, so `infer_policies` returns the same
scores and posterior as the same configuration with `use_inductive`
disabled. -/
theorem inductive_depth_zero_spec (expQ logQ : ℚ → ℚ) (g : GenModel)
    (cfg : EFEConfig) (pA : Option (List (List (List ℚ))))
    (pB : Option (List (List (List (List ℚ)))))
    (policies : List (List (List ℕ))) (qs : List (List ℚ))
    (hdepth : cfg.inductive_depth = 0) :
    (∀ pol : List (List ℕ),
      inductiveTerm g cfg.inductive_depth cfg.inductive_threshold
        (rollout g pol qs) = 0)
    ∧ infer_policies expQ logQ g
        (EFEConfig.mk cfg.use_utility cfg.use_states_info_gain
          cfg.use_param_info_gain true cfg.inductive_depth
          cfg.inductive_threshold) pA pB policies qs
      = infer_policies expQ logQ g
        (EFEConfig.mk cfg.use_utility cfg.use_states_info_gain
          cfg.use_param_info_gain false cfg.inductive_depth
          cfg.inductive_threshold) pA pB policies qs := by
  have hzero : ∀ (depth : ℕ) (thr : ℚ) (qspred : List (List (List ℚ))),
      depth = 0 → inductiveTerm g depth thr qspred = 0 := by
    intro depth thr qspred hd
    rw [hd]
    simp [inductiveTerm]
  refine ⟨fun pol => hzero _ _ _ hdepth, ?_⟩
  have hscores : policies.map (policyScore logQ g
      (EFEConfig.mk cfg.use_utility cfg.use_states_info_gain
        cfg.use_param_info_gain true cfg.inductive_depth
        cfg.inductive_threshold) pA pB qs)
      = policies.map (policyScore logQ g
        (EFEConfig.mk cfg.use_utility cfg.use_states_info_gain
          cfg.use_param_info_gain false cfg.inductive_depth
          cfg.inductive_threshold) pA pB qs) := by
    apply List.map_congr_left
    intro pol _
    simp only [policyScore, if_true, if_false]
    rw [hzero _ _ _ hdepth]
    simp
  rw [infer_policies, infer_policies, hscores]

/-! ## Uniform preferences give a uniform policy posterior -/

theorem getD_replicateQ (n i : ℕ) (c : ℚ) (h : i < n) :
    (List.replicate n c).getD i 0 = c := by
  rw [List.getD_eq_getElem?_getD,
    List.getElem?_eq_getElem (by simpa using h), List.getElem_replicate]
  rfl

theorem softmaxScores_const (expQ : ℚ → ℚ) (hpos : ∀ x, 0 < expQ x)
    (scores : List ℚ) (v : ℚ) (hall : ∀ s ∈ scores, s = v) :
    ∀ i, i < scores.length →
      (softmaxScores expQ scores).getD i 0 = ((scores.length : ℚ))⁻¹ := by
  intro i hi
  have hrep : scores = List.replicate scores.length v :=
    List.eq_replicate_of_mem hall
  have h1 : scores.map expQ = List.replicate scores.length (expQ v) := by
    conv_lhs => rw [hrep]
    rw [List.map_replicate]
  rw [softmaxScores, normalizeVec, h1, List.sum_replicate, List.map_replicate,
    getD_replicateQ _ _ _ hi, nsmul_eq_mul]
  have hc : expQ v ≠ 0 := ne_of_gt (hpos v)
  have hk : (scores.length : ℚ) ≠ 0 := by
    rw [Nat.cast_ne_zero]
    omega
  field_simp
  ring

theorem dot_replicate (v : List ℚ) (n : ℕ) (c : ℚ) (h : v.length = n) :
    dot v (List.replicate n c) = v.sum * c := by
  induction v generalizing n with
  | nil => simp [dot]
  | cons x xs ih =>
    cases n with
    | zero => simp at h
    | succ m =>
      rw [List.replicate_succ]
      simp only [dot, List.zip_cons_cons, List.map_cons, List.sum_cons]
      have hxs := ih m (by simpa using h)
      rw [show ((xs.zip (List.replicate m c)).map (fun p => p.1 * p.2)).sum
        = xs.sum * c from hxs]
      ring

theorem length_rollout (g : GenModel) :
    ∀ (pol : List (List ℕ)) (qs : List (List ℚ)),
      (rollout g pol qs).length = pol.length := by
  intro pol
  induction pol with
  | nil => intro qs; rfl
  | cons a rest ih =>
    intro qs
    rw [rollout]
    simp [ih]

theorem forall₂_of_getD (qs : List (List ℚ)) (dims : List ℕ)
    (hlen : qs.length = dims.length)
    (hq : ∀ f, f < dims.length → (qs.getD f []).length = dims.getD f 0) :
    List.Forall₂ (fun (q : List ℚ) n => q.length = n) qs dims := by
  induction dims generalizing qs with
  | nil =>
    cases qs with
    | nil => exact List.Forall₂.nil
    | cons q qs' => simp at hlen
  | cons n dims ih =>
    cases qs with
    | nil => simp at hlen
    | cons q qs' =>
      refine List.Forall₂.cons ?_ (ih qs' (by simpa using hlen) ?_)
      · simpa using hq 0 (by simp)
      · intro f hf
        simpa using hq (f + 1) (by simpa using Nat.succ_lt_succ hf)

theorem beliefWF_forall₂ (g : GenModel) (qs : List (List ℚ))
    (h : BeliefWF g qs) :
    List.Forall₂ (fun (q : List ℚ) n => q.length = n) qs g.num_states :=
  forall₂_of_getD qs g.num_states h.1 (fun f hf => (h.2 f hf).1)

theorem beliefWF_mem_sum (g : GenModel) (qs : List (List ℚ))
    (h : BeliefWF g qs) : ∀ q ∈ qs, q.sum = 1 := by
  intro q hqmem
  rcases List.mem_iff_getElem.1 hqmem with ⟨i, hi, rfl⟩
  have hs := (h.2 i (by rw [← h.1]; exact hi)).2
  rwa [List.getD_eq_getElem?_getD, List.getElem?_eq_getElem hi] at hs

theorem utilityTerm_const (logQ : ℚ → ℚ) (g : GenModel)
    (hA : AValid g) (hC : CUniform g) (qspred : List (List (List ℚ)))
    (hWF : ∀ q ∈ qspred, BeliefWF g q) :
    utilityTerm logQ g qspred
      = (qspred.length : ℚ) * ((List.range g.num_obs.length).map (fun m =>
          logQ (((g.num_obs.getD m 0 : ℚ))⁻¹ + epsFloor))).sum := by
  unfold utilityTerm
  have hstep : ∀ q ∈ qspred,
      ((List.range g.num_obs.length).map (fun m =>
        dot (predictObs g.num_states (g.A.getD m []) (g.num_obs.getD m 0) q)
          ((g.C.getD m []).map (fun c => logQ (c + epsFloor))))).sum
      = (fun _ : List (List ℚ) =>
          ((List.range g.num_obs.length).map (fun m =>
            logQ (((g.num_obs.getD m 0 : ℚ))⁻¹ + epsFloor))).sum) q := by
    intro q hq
    apply congrArg List.sum
    apply List.map_congr_left
    intro m hm
    have hmlt : m < g.num_obs.length := List.mem_range.1 hm
    rcases hA.2 m hmlt with ⟨hAlen, hrows⟩
    rw [hC.2 m hmlt, List.map_replicate,
      dot_replicate _ _ _ (by rw [predictObs, length_matVec]),
      sum_predictObs g.num_states (g.A.getD m []) (g.num_obs.getD m 0) q
        hAlen hrows (beliefWF_forall₂ g q (hWF q hq))
        (beliefWF_mem_sum g q (hWF q hq)),
      one_mul]
  rw [List.map_congr_left hstep, List.map_const', List.sum_replicate,
    nsmul_eq_mul]

theorem uniform_posterior_row (expQ logQ : ℚ → ℚ) (hpos : ∀ x, 0 < expQ x)
    (g : GenModel) (len : ℕ) (d : ℕ) (thr : ℚ)
    (pA : Option (List (List (List ℚ))))
    (pB : Option (List (List (List (List ℚ)))))
    (hA : AValid g) (hB : BValid g) (hC : CUniform g)
    (qs : List (List ℚ)) (hq : BeliefWF g qs) :
    ∀ i, i < (construct_policies g.num_controls len).length →
      (infer_policies expQ logQ g (EFEConfig.mk true false false false d thr)
          pA pB (construct_policies g.num_controls len) qs).1.getD i 0
        = (((construct_policies g.num_controls len).length : ℚ))⁻¹ := by
  intro i hi
  have hscore : ∀ pol ∈ construct_policies g.num_controls len,
      policyScore logQ g (EFEConfig.mk true false false false d thr)
        pA pB qs pol
      = (len : ℚ) * ((List.range g.num_obs.length).map (fun m =>
          logQ (((g.num_obs.getD m 0 : ℚ))⁻¹ + epsFloor))).sum := by
    intro pol hpol
    have hpv : PolicyValid g pol := by
      intro acts hacts f hf
      rcases construct_policies_bounds _ _ _ hpol with ⟨-, hsteps⟩
      have hlt := (hsteps acts hacts).2 f (by rw [hB.2.1]; exact hf)
      rw [(hB.2.2 f hf).1]
      exact hlt
    simp only [policyScore, if_true, if_false]
    rw [utilityTerm_const logQ g hA hC _ (rollout_WF g hB pol qs hpv hq),
      length_rollout, (construct_policies_bounds _ _ _ hpol).1]
    simp
  have hall : ∀ s ∈ (construct_policies g.num_controls len).map
      (policyScore logQ g (EFEConfig.mk true false false false d thr)
        pA pB qs),
      s = (len : ℚ) * ((List.range g.num_obs.length).map (fun m =>
        logQ (((g.num_obs.getD m 0 : ℚ))⁻¹ + epsFloor))).sum := by
    intro s hs
    rcases List.mem_map.1 hs with ⟨pol, hpol, rfl⟩
    exact hscore pol hpol
  show (softmaxScores expQ ((construct_policies g.num_controls len).map
      (policyScore logQ g (EFEConfig.mk true false false false d thr)
        pA pB qs))).getD i 0 = _
  rw [softmaxScores_const expQ hpos _ _ hall i (by simpa using hi)]
  simp

/-- **C8.**  For every valid generative model whose preference vectors are
uniform over each modality, an agent with only the utility term enabled
returns a policy posterior uniform across all enumerated policies within
`1e-6`, on every batch row and for every input belief. -/
theorem uniform_C_uniform_posterior (expQ logQ : ℚ → ℚ)
    (hpos : ∀ x, 0 < expQ x) (nc : List ℕ) (len : ℕ) (d : ℕ) (thr : ℚ)
    (pA : Option (List (List (List ℚ))))
    (pB : Option (List (List (List (List ℚ)))))
    (rows : List (GenModel × List (List ℚ)))
    (hrows : ∀ row ∈ rows, AValid row.1 ∧ BValid row.1 ∧ CUniform row.1
      ∧ BeliefWF row.1 row.2)
    (hncs : ∀ row ∈ rows, (row.1 : GenModel).num_controls = nc) :
    ∀ j, j < rows.length → ∀ i, i < (construct_policies nc len).length →
      |(((infer_policiesBatch expQ logQ rows
          (EFEConfig.mk true false false false d thr) pA pB
          (construct_policies nc len)).getD j default).1.getD i 0)
        - (((construct_policies nc len).length : ℚ))⁻¹| ≤ beliefTol := by
  intro j hj i hi
  rw [infer_policiesBatch, getD_map_lt _ _ j hj]
  rcases hrows _ (getD_mem rows j default hj) with ⟨hA, hB, hC, hq⟩
  have hnc := hncs _ (getD_mem rows j default hj)
  have hrow := uniform_posterior_row expQ logQ hpos (rows.getD j default).1
    len d thr pA pB hA hB hC (rows.getD j default).2 hq i
    (by rw [hnc]; exact hi)
  rw [hnc] at hrow
  rw [hrow, sub_self, abs_zero]
  norm_num [beliefTol]

/-! ## Construction-time validation -/

theorem shapeCheck_iff (r : RawTensors) : shapeCheck r = true ↔ ShapesOK r := by
  unfold shapeCheck ShapesOK
  cases r.E <;> cases r.H <;>
    simp [List.all_eq_true, Bool.and_eq_true, beq_iff_eq, List.mem_range] <;>
    tauto

theorem normCheck_iff (r : RawTensors) : normCheck r = true ↔ NormOK r := by
  unfold normCheck NormOK
  cases r.E <;> cases r.H <;>
    simp [List.all_eq_true, Bool.and_eq_true, List.mem_range] <;>
    tauto

/-- **C4.**  The generative-model constructor returns `ShapeMismatchError`
whenever a tensor axis disagrees with the declared dimensions or batch sizes
differ; returns `NormalizationError` whenever the shapes are fine but some
distribution-bearing axis fails to sum to 1 within `1e-4`; and it never
returns a model unless both validations succeed (one per-row model per batch
row), so no partially constructed agent ever reaches the caller. -/
theorem mkGenerativeModel_spec (r : RawTensors) :
    (¬ ShapesOK r →
      mkGenerativeModel r = Except.error ModelError.shapeMismatch)
    ∧ (ShapesOK r → ¬ NormOK r →
      mkGenerativeModel r = Except.error ModelError.normalization)
    ∧ (∀ gs, mkGenerativeModel r = Except.ok gs →
        ShapesOK r ∧ NormOK r ∧ gs.length = r.batch) := by
  refine ⟨?_, ?_, ?_⟩
  · intro h
    rw [mkGenerativeModel, if_neg (fun hb => h ((shapeCheck_iff r).1 hb))]
  · intro hs hn
    rw [mkGenerativeModel, if_pos ((shapeCheck_iff r).2 hs),
      if_neg (fun hb => hn ((normCheck_iff r).1 hb))]
  · intro gs hok
    rw [mkGenerativeModel] at hok
    by_cases hb : shapeCheck r = true
    · rw [if_pos hb] at hok
      by_cases hn : normCheck r = true
      · rw [if_pos hn] at hok
        refine ⟨(shapeCheck_iff r).1 hb, (normCheck_iff r).1 hn, ?_⟩
        have hgs : gs = (List.range r.batch).map (buildRow r) := by
          cases hok
          rfl
        rw [hgs]
        simp
      · rw [if_neg hn] at hok
        cases hok
    · rw [if_neg hb] at hok
      cases hok

/-! ## Concrete validity facts used by the witnesses -/

theorem gTest_BValid : BValid gTest := by
  refine ⟨rfl, rfl, ?_⟩
  intro f hf
  have h0 : f = 0 := by simpa [gTest] using hf
  subst h0
  refine ⟨rfl, ?_⟩
  intro Ba hBa
  have hBa' : Ba = [[1]] := by simpa [gTest] using hBa
  subst hBa'
  refine ⟨rfl, ?_⟩
  intro col hcol
  have hcol' : col = [1] := by simpa using hcol
  subst hcol'
  exact ⟨rfl, by simp⟩

theorem gTest_ActionsValid : ActionsValid gTest [0] := by
  intro f hf
  have h0 : f = 0 := by simpa [gTest] using hf
  subst h0
  decide

theorem gTest_BeliefWF : BeliefWF gTest [[1]] := by
  refine ⟨rfl, ?_⟩
  intro f hf
  have h0 : f = 0 := by simpa [gTest] using hf
  subst h0
  exact ⟨rfl, by simp⟩

theorem gTest2_AValid : AValid gTest2 := by
  refine ⟨rfl, ?_⟩
  intro m hm
  have h0 : m = 0 := by simpa [gTest2] using hm
  subst h0
  refine ⟨by decide, ?_⟩
  intro row hrow
  have hrow' : row = [1] := by simpa [gTest2] using hrow
  subst hrow'
  exact ⟨rfl, by simp⟩

theorem gTest2_BValid : BValid gTest2 := by
  refine ⟨rfl, rfl, ?_⟩
  intro f hf
  have h0 : f = 0 := by simpa [gTest2] using hf
  subst h0
  refine ⟨rfl, ?_⟩
  intro Ba hBa
  have hBa' : Ba = [[1]] := by
    rcases (by simpa [gTest2] using hBa : Ba = [[1]] ∨ Ba = [[1]]) with h | h <;>
      exact h
  subst hBa'
  refine ⟨rfl, ?_⟩
  intro col hcol
  have hcol' : col = [1] := by simpa using hcol
  subst hcol'
  exact ⟨rfl, by simp⟩

theorem gTest2_CUniform : CUniform gTest2 := by
  refine ⟨rfl, ?_⟩
  intro m hm
  have h0 : m = 0 := by simpa [gTest2] using hm
  subst h0
  show ([1] : List ℚ) = List.replicate 1 (((1 : ℕ) : ℚ))⁻¹
  norm_num

theorem gTest2_BeliefWF : BeliefWF gTest2 [[1]] := by
  refine ⟨rfl, ?_⟩
  intro f hf
  have h0 : f = 0 := by simpa [gTest2] using hf
  subst h0
  exact ⟨rfl, by simp⟩

theorem rBad_not_ShapesOK : ¬ ShapesOK rBad := by
  intro h
  have hcontra := h.1.1
  simp [rBad] at hcontra

theorem rNorm_ShapesOK : ShapesOK rNorm := by
  refine ⟨⟨rfl, ?_⟩, ⟨rfl, ?_⟩, ⟨rfl, ?_⟩, ⟨rfl, ?_⟩, ?_, ?_⟩
  · intro m hm
    have h0 : m = 0 := by simpa [rNorm] using hm
    subst h0
    refine ⟨rfl, ?_⟩
    intro rowA hA
    have hA' : rowA = [[1]] := by simpa [rNorm] using hA
    subst hA'
    refine ⟨by decide, ?_⟩
    intro d hd
    have hd' : d = [1] := by simpa using hd
    subst hd'
    rfl
  · intro f hf
    have h0 : f = 0 := by simpa [rNorm] using hf
    subst h0
    refine ⟨rfl, ?_⟩
    intro rowB hB
    have hB' : rowB = [[[1]]] := by simpa [rNorm] using hB
    subst hB'
    refine ⟨rfl, ?_⟩
    intro Ba hBa
    have hBa' : Ba = [[1]] := by simpa using hBa
    subst hBa'
    refine ⟨rfl, ?_⟩
    intro col hcol
    have hcol' : col = [1] := by simpa using hcol
    subst hcol'
    rfl
  · intro m hm
    have h0 : m = 0 := by simpa [rNorm] using hm
    subst h0
    refine ⟨rfl, ?_⟩
    intro v hv
    have hv' : v = [1] := by simpa [rNorm] using hv
    subst hv'
    rfl
  · intro f hf
    have h0 : f = 0 := by simpa [rNorm] using hf
    subst h0
    refine ⟨rfl, ?_⟩
    intro v hv
    have hv' : v = [5] := by simpa [rNorm] using hv
    subst hv'
    rfl
  · intro e he
    exact Option.noConfusion he
  · intro h he
    exact Option.noConfusion he

theorem rNorm_not_NormOK : ¬ NormOK rNorm := by
  intro h
  have hD := (h.2.1 0 (by decide)).2 [5] (by decide)
  norm_num [normTol] at hD

/-! ## Witnesses: the claim theorems applied at concrete executable inputs -/

/-- Witness for C1: the hypotheses are satisfiable and the conclusion holds
at a concrete model. -/
theorem belief_normalization_invariant_witness :
    |(((update_empirical_prior gTest [0] [[1]] []).1.getD 0 []).sum) - 1|
      ≤ beliefTol :=
  (belief_normalization_invariant (fun _ => 1) (fun _ => 0)
    (fun _ => by norm_num)).2.2 gTest [0] [[1]] []
    gTest_BValid gTest_ActionsValid gTest_BeliefWF 0 (by decide)

/-- Witness for C2 at `num_controls = [2, 1]`, `policy_len = 1`. -/
theorem construct_policies_spec_witness :
    (construct_policies [2, 1] 1).length = 2 ∧ [0, 0].getD 1 0 = 0 := by
  constructor
  · rw [(construct_policies_spec [2, 1] 1).1]
    decide
  · exact (construct_policies_spec [2, 1] 1).2.2.1 [[0, 0]] (by decide)
      [0, 0] (by decide) 1 (by decide) (by decide)

/-- Witness for C3 at a concrete model with the cap set to 0 (the warning
fires and the last iterate is returned). -/
theorem infer_states_bounded_sweeps_witness :
    (infer_states (fun _ => 1) (fun _ => 0) gTest [0] [[1]] 0 1).sweeps ≤ 0
    ∧ (infer_states (fun _ => 1) (fun _ => 0) gTest [0] [[1]] 0 1).qs
        = (sweep (fun _ => 1) (fun _ => 0) gTest [0] [[1]])^[0]
            (uniformInit gTest.num_states) :=
  ⟨(infer_states_bounded_sweeps (fun _ => 1) (fun _ => 0) gTest
      [0] [[1]] 0 1).1,
   ((infer_states_bounded_sweeps (fun _ => 1) (fun _ => 0) gTest
      [0] [[1]] 0 1).2.1 (by decide)).2⟩

/-- Witness for C4: a shape-mismatched input and a normalization-violating
input are rejected with the corresponding errors. -/
theorem mkGenerativeModel_spec_witness :
    mkGenerativeModel rBad = Except.error ModelError.shapeMismatch
    ∧ mkGenerativeModel rNorm = Except.error ModelError.normalization :=
  ⟨(mkGenerativeModel_spec rBad).1 rBad_not_ShapesOK,
   (mkGenerativeModel_spec rNorm).2.1 rNorm_ShapesOK rNorm_not_NormOK⟩

/-- Witness for C5 at a concrete model and one history entry. -/
theorem update_empirical_prior_spec_witness :
    (update_empirical_prior gTest [0] [[1]] [([[1]], [0])]).1.getD 0 []
        = matVec 1 [1] [[1]]
    ∧ (update_empirical_prior gTest [0] [[1]] [([[1]], [0])]).2.getD 0 ([], [])
        = ([[1]], [0]) := by
  constructor
  · exact (update_empirical_prior_spec gTest [0] [[1]] [([[1]], [0])]).1 0
      (by decide)
  · rw [(update_empirical_prior_spec gTest [0] [[1]] [([[1]], [0])]).2.2 0
      (by decide)]
    rfl

/-- Witness for C6: a posterior putting probability 1 on the second of two
policies yields that policy's first action, with the stream `[0]`. -/
theorem sample_action_degenerate_witness :
    (sample_action [2] (construct_policies [2] 1) [0, 1] [0]).getD 0 0
      = firstAction ((construct_policies [2] 1).getD 1 []) 0 :=
  (sample_action_degenerate [2] 1 [0, 1] 1 (by decide) (by decide) (by decide)
    (by decide) (by decide)).1 [0] (by decide) 0 (by decide)

/-- Witness for C7 at depth 0. -/
theorem inductive_depth_zero_spec_witness :
    inductiveTerm gTest 0 0 (rollout gTest [[0]] [[1]]) = 0
    ∧ infer_policies (fun _ => 1) (fun _ => 0) gTest
        (EFEConfig.mk true false false true 0 0) none none
        (construct_policies [1] 1) [[1]]
      = infer_policies (fun _ => 1) (fun _ => 0) gTest
        (EFEConfig.mk true false false false 0 0) none none
        (construct_policies [1] 1) [[1]] :=
  ⟨(inductive_depth_zero_spec (fun _ => 1) (fun _ => 0) gTest
      (EFEConfig.mk true false false true 0 0) none none
      (construct_policies [1] 1) [[1]] rfl).1 [[0]],
   (inductive_depth_zero_spec (fun _ => 1) (fun _ => 0) gTest
      (EFEConfig.mk true false false true 0 0) none none
      (construct_policies [1] 1) [[1]] rfl).2⟩

/-- Witness for C8 at a one-row batch with two policies. -/
theorem uniform_C_uniform_posterior_witness :
    |(((infer_policiesBatch (fun _ => 1) (fun _ => 0) [(gTest2, [[1]])]
        (EFEConfig.mk true false false false 0 0) none none
        (construct_policies [2] 1)).getD 0 default).1.getD 0 0)
      - (((construct_policies [2] 1).length : ℚ))⁻¹| ≤ beliefTol :=
  uniform_C_uniform_posterior (fun _ => 1) (fun _ => 0) (fun _ => by norm_num)
    [2] 1 0 0 none none [(gTest2, [[1]])]
    (by
      intro row hrow
      have hrow' : row = (gTest2, [[1]]) := by simpa using hrow
      subst hrow'
      exact ⟨gTest2_AValid, gTest2_BValid, gTest2_CUniform, gTest2_BeliefWF⟩)
    (by
      intro row hrow
      have hrow' : row = (gTest2, [[1]]) := by simpa using hrow
      subst hrow'
      rfl)
    0 (by decide) 0 (by decide)

/-- Witness for C9 at an uncontrollable single factor. -/
theorem sample_action_null_action_witness :
    (sample_action [1] (construct_policies [1] 1) [1] []).getD 0 0 = 0 :=
  sample_action_null_action [1] 1 [1] [] 0 (by decide) (by decide) (by decide)
    (by simp) (by simp)

end ActiveInference
